import Mathlib

/-!
Verification of the KZG polynomial-commitment exploration repository.

The development shallowly embeds the Rust sources:

* `src/polynomial.rs` — `Polynomial` holds a `Vec<i128>` of coefficients in
  ascending degree.  All integer arithmetic on coefficients is *checked*
  (`checked_add`, `checked_mul`, …): any overflow of the `i128` range turns
  into an error.  We model coefficient vectors as `List Int` and checked
  operations as `Option Int` valued functions guarded by the `i128` range.
* `src/scalar.rs` — `Scalar` wraps `blst_fr`, an element of the BLS12-381
  scalar field of prime order `R`.  We model it as `ZMod R`.
* `src/curves.rs` / `src/trusted_setup.rs` — `G1Point`/`G2Point` wrap blst
  points of the prime-order-`R` groups G1 and G2.  Every point the program
  manipulates is a scalar multiple of the fixed generator, so we model a
  point by its discrete logarithm in `ZMod R`: point addition becomes `+`,
  subtraction `-`, scalar multiplication `*`, and the bilinear pairing
  `e(a·G1, b·G2) = e(G1,G2)^(a*b)` becomes multiplication of the exponents,
  with target-group equality becoming equality in `ZMod R` (the pairing is
  non-degenerate, so `e(G1,G2)` generates a subgroup of order `R`).

Rust panics (out-of-bounds indexing) and potential non-termination are
modelled by `Option`-valued functions returning `none`; fueled recursion is
used for the source's `while` loops, with the fuel proven sufficient.
-/

namespace KZG

/-- Order of the BLS12-381 scalar field (the constant `R_AS_HEX` of
`src/scalar.rs`). -/
def R : ℕ := 52435875175126190479447740508185965837690552500527637822603658699938581184513

/-- Smallest `i128` value. -/
def I128_MIN : Int := -(2 ^ 127)

/-- Largest `i128` value. -/
def I128_MAX : Int := 2 ^ 127 - 1

/-- The `i128` range. -/
def inI128 (x : Int) : Prop := I128_MIN ≤ x ∧ x ≤ I128_MAX

instance : DecidablePred inI128 := fun _ => instDecidableAnd

/-- Rust `i128::checked_add`. -/
def checkedAdd (a b : Int) : Option Int :=
  if inI128 (a + b) then some (a + b) else none

/-- Rust `i128::checked_sub`. -/
def checkedSub (a b : Int) : Option Int :=
  if inI128 (a - b) then some (a - b) else none

/-- Rust `i128::checked_mul`. -/
def checkedMul (a b : Int) : Option Int :=
  if inI128 (a * b) then some (a * b) else none

/-- Rust `i128::checked_neg` (fails only at `i128::MIN`). -/
def checkedNeg (a : Int) : Option Int :=
  if inI128 (-a) then some (-a) else none

/-- Rust `i128::checked_pow`: squaring-based exponentiation returning `none`
exactly when the mathematical power leaves the `i128` range (the skipped
final squaring in Rust's implementation makes the intermediate products
stay in range whenever the result does). -/
def checkedPow (a : Int) (n : ℕ) : Option Int :=
  if inI128 (a ^ n) then some (a ^ n) else none

/-- Error kinds raised by the protocol layer (`anyhow` messages in the
source, abstracted to a small enumeration). -/
inductive PolyError
  /-- "Too many coefficients for polynomial" in `TryFrom<&[i128]>`. -/
  | tooManyCoefficients
  /-- Any "[...] Overflow while ..." error from checked `i128` arithmetic. -/
  | overflow
  /-- "Unable to divide a constant polynomial". -/
  | unableToDivideConstant
  /-- "Fail to divide the polynomial by a root, constant terms do not add up". -/
  | divisionMismatch
  /-- "Setup does not allow for commitment generation of the polynomial". -/
  | insufficientSetup
deriving DecidableEq

/-- `u32::MAX`, the coefficient-count bound checked by `TryFrom<&[i128]>`. -/
def U32_MAX : ℕ := 4294967295

/-- The `while let Some(last) = coefficients.last() && *last == 0 { pop }`
normalization loop of `TryFrom<&[i128]> for Polynomial`. -/
def stripTrailingZeros (l : List Int) : List Int :=
  ((l.reverse).dropWhile (fun x => x == 0)).reverse

namespace Polynomial

/-- `Polynomial::try_from(&[i128])`: reject more than `u32::MAX`
coefficients, then strip trailing zero coefficients. -/
def tryFrom (value : List Int) : Except PolyError (List Int) :=
  if value.length > U32_MAX then .error .tooManyCoefficients
  else .ok (stripTrailingZeros value)

/-- `Polynomial::from_constant(a)`: builds `vec![a]` with no normalization. -/
def fromConstant (a : Int) : List Int := [a]

/-- `Polynomial::degree()`: one less than the coefficient count, `0` when
empty. -/
def degree (coeffs : List Int) : ℕ :=
  if coeffs.isEmpty then 0 else coeffs.length - 1

end Polynomial

/-- The normalization invariant of `Polynomial`: no trailing zero
coefficient (the empty list, representing the zero polynomial, satisfies it
vacuously). -/
def normalized (l : List Int) : Prop := l.getLast? ≠ some 0

instance : DecidablePred normalized := fun _ =>
  instDecidableNot

/-- Exact evaluation over ℤ of a coefficient list (ascending degree) at a
point: `polyEvalZ [a0, a1, …] x = a0 + a1*x + a2*x^2 + …`.  Reference
semantics used to state what the checked operations compute. -/
def polyEvalZ (coeffs : List Int) (x : Int) : Int :=
  match coeffs with
  | [] => 0
  | c :: rest => c + x * polyEvalZ rest x

/-- The `Evaluation` struct of `src/polynomial.rs`. -/
structure Evaluation where
  point : Int
  result : Int
deriving DecidableEq

namespace Polynomial

/-- The body of the `for (degree, coefficient)` loop of
`Polynomial::evaluate`: `i` is the enumeration index, `acc` the running
evaluation.  The `degree as u32` cast of the source is the `i % 2^32`
reduction. -/
def evaluateAux (x : Int) : ℕ → Int → List Int → Except PolyError Int
  | _, acc, [] => .ok acc
  | i, acc, c :: rest =>
    match checkedPow x (i % 2 ^ 32) with
    | none => .error .overflow
    | some xPowered =>
      match checkedMul c xPowered with
      | none => .error .overflow
      | some contribution =>
        match checkedAdd acc contribution with
        | none => .error .overflow
        | some acc2 => evaluateAux x (i + 1) acc2 rest

/-- `Polynomial::evaluate`: checked accumulation of `Σ coefficient_i · x^i`,
returning `Evaluation { point, result }`. -/
def evaluate (coeffs : List Int) (x : Int) : Except PolyError Evaluation :=
  match evaluateAux x 0 0 coeffs with
  | .error e => .error e
  | .ok r => .ok ⟨x, r⟩

/-- First branch of `Polynomial::sub` (`a_length > b_length`): subtract `b`
element-wise from the prefix of `a`, keeping the tail of `a`.  `none`
reports a checked-subtraction overflow (the `[], _ :: _` shape cannot occur
under the branch guard). -/
def subPrefixLoop : List Int → List Int → Option (List Int)
  | as, [] => some as
  | a :: as, b :: bs =>
    match checkedSub a b with
    | none => none
    | some d =>
      match subPrefixLoop as bs with
      | none => none
      | some rest => some (d :: rest)
  | [], _ :: _ => none

/-- Checked element-wise negation (`x.checked_neg()` over the whole vector)
used by the second branch of `Polynomial::sub`. -/
def negLoop : List Int → Option (List Int)
  | [] => some []
  | b :: bs =>
    match checkedNeg b with
    | none => none
    | some nb =>
      match negLoop bs with
      | none => none
      | some rest => some (nb :: rest)

/-- Second part of the second branch of `Polynomial::sub`: add the elements
of `a` onto the prefix of the (already negated) vector.  The `_ :: _, []`
shape cannot occur under the branch guard `a_length ≤ b_length`. -/
def addPrefixLoop : List Int → List Int → Option (List Int)
  | [], cs => some cs
  | a :: as, c :: cs =>
    match checkedAdd a c with
    | none => none
    | some s =>
      match addPrefixLoop as cs with
      | none => none
      | some rest => some (s :: rest)
  | _ :: _, [] => none

/-- `Polynomial::sub`: coefficient-wise checked subtraction over the union
of the index ranges, renormalized through `try_from`. -/
def sub (a b : List Int) : Except PolyError (List Int) :=
  if a.length > b.length then
    match subPrefixLoop a b with
    | none => .error .overflow
    | some c => tryFrom c
  else
    match negLoop b with
    | none => .error .overflow
    | some negB =>
      match addPrefixLoop a negB with
      | none => .error .overflow
      | some c => tryFrom c

/-- The `for i in (1..self.coefficients.len() - 1).rev()` loop of
`Polynomial::divide_by_root`: `last` is `last_coefficient_found`, the input
list holds the coefficients in visit order (`a_{n-1}` down to `a_1`), the
output is the successive pushes.  `none` reports a checked-arithmetic
overflow. -/
def synthLoopChecked (z : Int) : Int → List Int → Option (List Int)
  | _, [] => some []
  | last, a :: rest =>
    match checkedMul z last with
    | none => none
    | some contributionFromRoot =>
      match checkedAdd a contributionFromRoot with
      | none => none
      | some next =>
        match synthLoopChecked z next rest with
        | none => none
        | some tail => some (next :: tail)

/-- `Polynomial::divide_by_root(root)`: synthetic division of the
coefficient list by `x - root` with the reconstructed-constant-term check. -/
def divideByRoot (coeffs : List Int) (root : Int) : Except PolyError (List Int) :=
  match coeffs.getLast? with
  | none => .ok []
  | some higherOrderCoefficient =>
    if coeffs.length = 1 then
      if higherOrderCoefficient = 0 then .ok []
      else .error .unableToDivideConstant
    else
      -- the loop visits `a_{n-1}` down to `a_1`
      match synthLoopChecked root higherOrderCoefficient
          ((coeffs.drop 1).dropLast.reverse) with
      | none => .error .overflow
      | some pushed =>
        -- `quotient_coefficients_reversed` is reversed in place, giving
        -- `(higherOrderCoefficient :: pushed).reverse`, then used for the
        -- constant-term check and the final `try_from`
        match checkedMul root (((higherOrderCoefficient :: pushed).reverse).headD 0) with
        | none => .error .overflow
        | some m =>
          match checkedNeg m with
          | none => .error .overflow
          | some rebuiltConstantTerm =>
            if rebuiltConstantTerm = coeffs.headD 0 then
              tryFrom ((higherOrderCoefficient :: pushed).reverse)
            else .error .divisionMismatch

end Polynomial

/-- Unchecked (exact, over ℤ) version of the synthetic-division loop. -/
def synthLoopZ (z : Int) : Int → List Int → List Int
  | _, [] => []
  | last, a :: rest =>
    (a + z * last) :: synthLoopZ z (a + z * last) rest

/-- Modelled from the spec: the quotient of the synthetic division of
`a_0 … a_n` by `x - root` — "set `b_{n-1} = a_n`; for `i` from `n-1` down
to `1`: `b_{i-1} = a_i + root · b_i`; the quotient is `b_0 … b_{n-1}`" —
written for comparison with the quotient `Polynomial.divideByRoot`
returns. -/
def specQuotient (coeffs : List Int) (root : Int) : List Int :=
  match coeffs.getLast? with
  | none => []
  | some an => (an :: synthLoopZ root an ((coeffs.drop 1).dropLast.reverse)).reverse

/-- Exact element-wise subtraction over ℤ with zero padding of the shorter
operand; reference semantics for `Polynomial.sub`. -/
def subZ : List Int → List Int → List Int
  | as, [] => as
  | [], b :: bs => (-b) :: subZ [] bs
  | a :: as, b :: bs => (a - b) :: subZ as bs

/-- The `SetupArtifact` struct, with both group points replaced by their
discrete logarithms with respect to the fixed generators. -/
structure SetupArtifact where
  g1 : ZMod R
  g2 : ZMod R
deriving DecidableEq

instance : Inhabited SetupArtifact := ⟨⟨0, 0⟩⟩

namespace Polynomial

/-- The `for (i, coefficient)` multi-scalar-multiplication loop of
`Polynomial::commit` in the discrete-logarithm model:
`commitment = commitment.add(setup_artifacts[i].g1.mult(coefficient))`.
The `_ :: _, []` shape is unreachable because the SRS-length guard in
`commit` keeps every index `i` in range. -/
def msmLoop : List Int → List SetupArtifact → ZMod KZG.R → ZMod KZG.R
  | [], _, acc => acc
  | _ :: _, [], acc => acc
  | c :: cs, a :: as, acc => msmLoop cs as (acc + a.g1 * (c : ZMod KZG.R))

/-- `Polynomial::commit`: SRS-length guard, then the multi-scalar
multiplication starting from `G1Point::from_i128(0)` (discrete log `0`). -/
def commit (coeffs : List Int) (srs : List SetupArtifact) :
    Except PolyError (ZMod KZG.R) :=
  if degree coeffs + 1 > srs.length then .error .insufficientSetup
  else .ok (msmLoop coeffs srs 0)

/-- `Polynomial::generate_evaluation_proof`: subtract the claimed result,
divide by `x - point`, commit to the quotient. -/
def generateEvaluationProof (coeffs : List Int) (ev : Evaluation)
    (srs : List SetupArtifact) : Except PolyError (ZMod KZG.R) :=
  match sub coeffs (fromConstant ev.result) with
  | .error e => .error e
  | .ok d =>
    match divideByRoot d ev.point with
    | .error e => .error e
    | .ok q => commit q srs

end Polynomial

namespace Evaluation

/-- `Evaluation::verify_proof` in the discrete-logarithm model.  The source
reads `setup_artifacts[1]` with no length check, so a slice shorter than 2
makes the Rust function panic with an index-out-of-bounds: the panic is
modelled by `none`.  On success the source always returns `Ok(lhs == rhs)`
(the `Result` error arm is dead code); the pairing comparison
`e(proof, srs[1].g2 - point·G2) == e(commitment - result·G1, 1·G2)` becomes
an equality of exponents in `ZMod R`. -/
def verifyProof (ev : Evaluation) (proof commitment : ZMod KZG.R)
    (srs : List SetupArtifact) : Option Bool :=
  match srs[1]? with
  | none => none
  | some artifact =>
    let lhs := proof * (artifact.g2 - (ev.point : ZMod KZG.R))
    let rhs := (commitment - (ev.result : ZMod KZG.R)) * (1 : ZMod KZG.R)
    some (decide (lhs = rhs))

end Evaluation

namespace Scalar

/-- The first `while current_power_of_two * 2 <= target_factor` loop of
`Scalar::pow`: records `self^2, self^4, self^8, …` until the next power of
two would pass `target`.  The source loop is unfueled; `fuel` bounds the
iteration count and is proven sufficient below (the counter at least
doubles every iteration). -/
def buildPowers (s : ZMod R) (target : ℕ) : ℕ → ℕ → List (ZMod R) → List (ZMod R)
  | 0, _, acc => acc
  | fuel + 1, currentPowerOfTwo, acc =>
    if currentPowerOfTwo * 2 ≤ target then
      buildPowers s target fuel (currentPowerOfTwo * 2)
        (acc ++ [acc.getLastD s * acc.getLastD s])
    else acc

/-- The second `while self_power_tracker != target_factor` loop of
`Scalar::pow`, the greedy consumption of the recorded powers of two.  The
source loop is unfueled and reads `powered_scalars[powered_scalars.len() - 1]`,
which panics when the vector is empty: `none` models both fuel exhaustion
(the loop running longer than the proven bound) and that panic. -/
def powLoop (target : ℕ) : ℕ → ZMod R → ℕ → List (ZMod R) → ℕ → Option (ZMod R)
  | fuel, result, tracker, powered, available =>
    if tracker = target then some result
    else
      match fuel with
      | 0 => none
      | fuel + 1 =>
        if tracker + available ≤ target then
          match powered.getLast? with
          | none => none
          | some p =>
            powLoop target fuel (result * p) (tracker + available)
              powered.dropLast (available / 2)
        else
          powLoop target fuel result tracker powered.dropLast (available / 2)

/-- `Scalar::pow(n)`: exponent 0 and 1 special-cased, then the power-of-two
decomposition towards `target_factor = n / 2` (inlined below), followed by
the final squaring (with the extra `self` factor for odd `n`).  The loop
fuel is the recorded-powers count plus one, proven sufficient.  All the
`usize` arithmetic of the source stays far below `2^64` for any
representable `n`, so plain `ℕ` is exact. -/
def pow (s : ZMod R) (n : ℕ) : Option (ZMod R) :=
  if n = 0 then some 1
  else if n = 1 then some s
  else
    match powLoop (n / 2) ((buildPowers s (n / 2) (n / 2) 1 []).length + 1)
        (if n / 2 % 2 = 0 then (1 : ZMod R) else s)
        (if n / 2 % 2 = 0 then 0 else 1)
        (buildPowers s (n / 2) (n / 2) 1 [])
        (2 ^ (buildPowers s (n / 2) (n / 2) 1 []).length) with
    | none => none
    | some r => some (if n / 2 * 2 = n then r * r else r * r * s)

end Scalar

/-- Proof-side characterization of the list `buildPowers` accumulates:
`pows s k = [s^2, s^4, …, s^(2^k)]`. -/
def pows (s : ZMod R) (k : ℕ) : List (ZMod R) :=
  (List.range k).map (fun i => s ^ 2 ^ (i + 1))

/-- Proof-side characterization of `self_power_tracker` when the greedy
loop of `Scalar::pow` is about to consume the power `2^j`: all bits of
`target` above position `j`, plus its parity bit. -/
def trackerAt (target j : ℕ) : ℕ :=
  target % 2 + (target - target % 2 ^ (j + 1))

/-- The `SetupArtifactsGenerator` struct of `src/trusted_setup.rs`.  The
48-byte big-endian secret is its value as a natural number
(`BigUint::from_bytes_be`); `current_s_powered` is the unreduced running
power. -/
structure SetupArtifactsGenerator where
  secret : ℕ
  isAtPowerZero : Bool
  currentSPowered : ℕ

namespace SetupArtifactsGenerator

/-- `SetupArtifactsGenerator::new(secret)`. -/
def new (secret : ℕ) : SetupArtifactsGenerator := ⟨secret, true, 1⟩

/-- `Iterator::next` for `SetupArtifactsGenerator`: the first call returns
the generator pair (discrete logs `(1, 1)`) and clears the flag; later
calls multiply `current_s_powered` by the secret and scale both generators
by it.  The groups have order `R`, so scaling a generator by the unreduced
integer power is scaling by its residue mod `R`. -/
def next (g : SetupArtifactsGenerator) : SetupArtifact × SetupArtifactsGenerator :=
  if g.isAtPowerZero then
    (⟨1, 1⟩, { g with isAtPowerZero := false })
  else
    let p := g.currentSPowered * g.secret
    (⟨(p : ZMod R), (p : ZMod R)⟩, { g with currentSPowered := p })

/-- `Iterator::take(n).collect()`: the first `n` artifacts produced by a
generator. -/
def takeArtifacts : SetupArtifactsGenerator → ℕ → List SetupArtifact
  | _, 0 => []
  | g, n + 1 =>
    let (a, g2) := g.next
    a :: takeArtifacts g2 n

end SetupArtifactsGenerator

set_option maxRecDepth 10000

/-! ### Checked `i128` arithmetic: success determines the exact value -/

theorem checkedAdd_eq {a b c : Int} (h : checkedAdd a b = some c) : c = a + b := by
  unfold checkedAdd at h; split at h <;> simp_all

theorem checkedSub_eq {a b c : Int} (h : checkedSub a b = some c) : c = a - b := by
  unfold checkedSub at h; split at h <;> simp_all

theorem checkedMul_eq {a b c : Int} (h : checkedMul a b = some c) : c = a * b := by
  unfold checkedMul at h; split at h <;> simp_all

theorem checkedNeg_eq {a c : Int} (h : checkedNeg a = some c) : c = -a := by
  unfold checkedNeg at h; split at h <;> simp_all

theorem checkedPow_eq {a c : Int} {n : ℕ} (h : checkedPow a n = some c) : c = a ^ n := by
  unfold checkedPow at h; split at h <;> simp_all

/-! ### Exact evaluation and normalization -/

theorem polyEvalZ_nil (x : Int) : polyEvalZ [] x = 0 := rfl

theorem polyEvalZ_cons (c : Int) (rest : List Int) (x : Int) :
    polyEvalZ (c :: rest) x = c + x * polyEvalZ rest x := rfl

theorem polyEvalZ_append (xs ys : List Int) (z : Int) :
    polyEvalZ (xs ++ ys) z = polyEvalZ xs z + z ^ xs.length * polyEvalZ ys z := by
  induction xs with
  | nil => simp [polyEvalZ]
  | cons c rest ih => simp [polyEvalZ, ih]; ring

theorem polyEvalZ_eq_sum (coeffs : List Int) (x : Int) :
    polyEvalZ coeffs x = ∑ i ∈ Finset.range coeffs.length, coeffs.getD i 0 * x ^ i := by
  induction coeffs with
  | nil => simp [polyEvalZ]
  | cons c rest ih =>
    rw [polyEvalZ_cons, ih, List.length_cons, Finset.sum_range_succ']
    simp only [List.getD_cons_succ, List.getD_cons_zero, pow_zero, mul_one,
      Finset.mul_sum]
    rw [add_comm c]
    congr 1
    exact Finset.sum_congr rfl fun i _ => by ring

theorem dropWhile_zero_head? (l : List Int) :
    (l.dropWhile (fun x => x == 0)).head? ≠ some 0 := by
  induction l with
  | nil => simp
  | cons a t ih =>
    by_cases h : a = 0
    · rwa [List.dropWhile_cons_of_pos (by simp [h])]
    · rw [List.dropWhile_cons_of_neg (by simp [h])]
      simpa using h

theorem stripTrailingZeros_normalized (l : List Int) :
    normalized (stripTrailingZeros l) := by
  unfold normalized stripTrailingZeros
  rw [List.getLast?_reverse]
  exact dropWhile_zero_head? l.reverse

theorem stripTrailingZeros_eq_self {l : List Int} (h : normalized l) :
    stripTrailingZeros l = l := by
  unfold stripTrailingZeros
  cases hr : l.reverse with
  | nil => simpa using congrArg List.reverse hr
  | cons a t =>
    have hla : l.getLast? = some a := by
      rw [← List.head?_reverse, hr]; rfl
    have ha : a ≠ 0 := fun h0 => h (h0 ▸ hla)
    rw [List.dropWhile_cons_of_neg (by simpa using ha), ← hr, List.reverse_reverse]

theorem polyEvalZ_strip (l : List Int) (x : Int) :
    polyEvalZ (stripTrailingZeros l) x = polyEvalZ l x := by
  unfold stripTrailingZeros
  have main : ∀ m : List Int,
      polyEvalZ ((m.dropWhile (fun v => v == 0)).reverse) x = polyEvalZ m.reverse x := by
    intro m
    induction m with
    | nil => rfl
    | cons a t ih =>
      by_cases h : a = 0
      · rw [List.dropWhile_cons_of_pos (by simp [h]), ih, List.reverse_cons,
          polyEvalZ_append]
        simp [polyEvalZ, h]
      · rw [List.dropWhile_cons_of_neg (by simp [h])]
  calc polyEvalZ ((l.reverse.dropWhile (fun v => v == 0)).reverse) x
      = polyEvalZ l.reverse.reverse x := main l.reverse
    _ = polyEvalZ l x := by rw [List.reverse_reverse]

/-! ### Subtraction -/

theorem subZ_nil_right (as : List Int) : subZ as [] = as := by
  cases as <;> rfl

theorem subZ_nil_left (b : List Int) : subZ [] b = b.map (fun v => -v) := by
  induction b with
  | nil => rfl
  | cons y ys ih => simp [subZ, ih]

theorem polyEvalZ_subZ (a b : List Int) (x : Int) :
    polyEvalZ (subZ a b) x = polyEvalZ a x - polyEvalZ b x := by
  induction a generalizing b with
  | nil =>
    induction b with
    | nil => simp [polyEvalZ]
    | cons y ys ihb => simp only [subZ, polyEvalZ] at *; rw [ihb]; ring
  | cons c cs ih =>
    cases b with
    | nil => simp [subZ_nil_right, polyEvalZ]
    | cons y ys => simp only [subZ, polyEvalZ]; rw [ih]; ring

theorem subPrefixLoop_some {b a c : List Int}
    (h : Polynomial.subPrefixLoop a b = some c) : c = subZ a b := by
  induction b generalizing a c with
  | nil =>
    rw [subZ_nil_right]
    cases a <;> simpa [Polynomial.subPrefixLoop] using h.symm
  | cons y ys ih =>
    cases a with
    | nil => simp [Polynomial.subPrefixLoop] at h
    | cons x xs =>
      simp only [Polynomial.subPrefixLoop] at h
      cases hs : checkedSub x y with
      | none => rw [hs] at h; cases h
      | some d =>
        rw [hs] at h
        cases hrest : Polynomial.subPrefixLoop xs ys with
        | none => rw [hrest] at h; cases h
        | some rest =>
          rw [hrest] at h
          cases h
          rw [checkedSub_eq hs, ih hrest]
          rfl

theorem negLoop_some {b nb : List Int} (h : Polynomial.negLoop b = some nb) :
    nb = b.map (fun v => -v) := by
  induction b generalizing nb with
  | nil => simpa [Polynomial.negLoop] using h.symm
  | cons y ys ih =>
    simp only [Polynomial.negLoop] at h
    cases hn : checkedNeg y with
    | none => rw [hn] at h; cases h
    | some v =>
      rw [hn] at h
      cases hrest : Polynomial.negLoop ys with
      | none => rw [hrest] at h; cases h
      | some rest =>
        rw [hrest] at h
        cases h
        rw [checkedNeg_eq hn, ih hrest]
        rfl

theorem addPrefixLoop_some {a b c : List Int}
    (h : Polynomial.addPrefixLoop a (b.map (fun v => -v)) = some c) : c = subZ a b := by
  induction a generalizing b c with
  | nil =>
    rw [subZ_nil_left]
    simpa [Polynomial.addPrefixLoop] using h.symm
  | cons x xs ih =>
    cases b with
    | nil => simp [Polynomial.addPrefixLoop] at h
    | cons y ys =>
      simp only [List.map_cons, Polynomial.addPrefixLoop] at h
      cases ha : checkedAdd x (-y) with
      | none => rw [ha] at h; cases h
      | some s =>
        rw [ha] at h
        cases hrest : Polynomial.addPrefixLoop xs (ys.map (fun v => -v)) with
        | none => rw [hrest] at h; cases h
        | some rest =>
          rw [hrest] at h
          cases h
          have : s = x - y := by rw [checkedAdd_eq ha]; ring
          rw [this, ih hrest]
          rfl

theorem tryFrom_ok {l c : List Int} (h : Polynomial.tryFrom l = .ok c) :
    c = stripTrailingZeros l := by
  unfold Polynomial.tryFrom at h
  split at h
  · cases h
  · cases h; rfl

theorem sub_ok {a b c : List Int} (h : Polynomial.sub a b = .ok c) :
    c = stripTrailingZeros (subZ a b) := by
  unfold Polynomial.sub at h
  split at h
  · split at h
    · cases h
    · rename_i c0 hl
      rw [tryFrom_ok h, subPrefixLoop_some hl]
  · split at h
    · cases h
    · rename_i negB hn
      split at h
      · cases h
      · rename_i c0 ha
        rw [tryFrom_ok h]
        rw [negLoop_some hn] at ha
        rw [addPrefixLoop_some ha]

theorem polyEvalZ_sub_ok {a b c : List Int} (h : Polynomial.sub a b = .ok c)
    (x : Int) : polyEvalZ c x = polyEvalZ a x - polyEvalZ b x := by
  rw [sub_ok h, polyEvalZ_strip, polyEvalZ_subZ]

/-! ### Evaluation loop -/

theorem evaluateAux_ok {x : Int} :
    ∀ (l : List Int) (i : ℕ) (acc r : Int), i + l.length ≤ 2 ^ 32 →
      Polynomial.evaluateAux x i acc l = .ok r →
      r = acc + ∑ j ∈ Finset.range l.length, l.getD j 0 * x ^ (i + j) := by
  intro l
  induction l with
  | nil =>
    intro i acc r _ h
    simpa [Polynomial.evaluateAux] using h.symm
  | cons c rest ih =>
    intro i acc r hbound h
    simp only [Polynomial.evaluateAux] at h
    split at h
    · cases h
    · rename_i xPowered hp
      split at h
      · cases h
      · rename_i contribution hm
        split at h
        · cases h
        · rename_i acc2 ha
          have hi : i % 2 ^ 32 = i := Nat.mod_eq_of_lt (by simp at hbound; omega)
          have hxp : xPowered = x ^ i := by rw [checkedPow_eq hp, hi]
          have hacc2 : acc2 = acc + c * x ^ i := by
            rw [checkedAdd_eq ha, checkedMul_eq hm, hxp]
          have := ih (i + 1) acc2 r (by simp at hbound ⊢; omega) h
          rw [this, hacc2, List.length_cons, Finset.sum_range_succ']
          simp only [List.getD_cons_succ, List.getD_cons_zero]
          have hre : ∀ j, i + 1 + j = i + (j + 1) := fun j => by omega
          rw [Finset.sum_congr rfl (fun j _ => by rw [hre j])]
          ring

/-! ### Synthetic division -/

theorem synthLoopZ_length (z : Int) :
    ∀ (l : List Int) (last : Int), (synthLoopZ z last l).length = l.length := by
  intro l
  induction l with
  | nil => intro last; rfl
  | cons a rest ih => intro last; simp [synthLoopZ, ih]

theorem synthLoopChecked_some {z : Int} :
    ∀ {l : List Int} {last : Int} {out : List Int},
      Polynomial.synthLoopChecked z last l = some out → out = synthLoopZ z last l := by
  intro l
  induction l with
  | nil =>
    intro last out h
    simpa [Polynomial.synthLoopChecked, synthLoopZ] using h.symm
  | cons a rest ih =>
    intro last out h
    simp only [Polynomial.synthLoopChecked] at h
    split at h
    · cases h
    · rename_i contrib hm
      split at h
      · cases h
      · rename_i next ha
        split at h
        · cases h
        · rename_i tail ht
          cases h
          have hnext : next = a + z * last := by
            rw [checkedAdd_eq ha, checkedMul_eq hm]
          rw [ih ht, hnext]
          simp [synthLoopZ]

theorem synthLoopZ_getLastD (z : Int) :
    ∀ (l : List Int) (last : Int),
      (synthLoopZ z last l).getLastD last = polyEvalZ (l.reverse ++ [last]) z := by
  intro l
  induction l with
  | nil => intro last; simp [synthLoopZ, polyEvalZ]
  | cons a rest ih =>
    intro last
    calc (synthLoopZ z last (a :: rest)).getLastD last
        = (synthLoopZ z (a + z * last) rest).getLastD (a + z * last) := by
          rw [synthLoopZ]
          exact List.getLastD_cons _ _ _
      _ = polyEvalZ (rest.reverse ++ [a + z * last]) z := ih _
      _ = polyEvalZ ((a :: rest).reverse ++ [last]) z := by
          rw [List.reverse_cons, List.append_assoc, polyEvalZ_append, polyEvalZ_append]
          simp [polyEvalZ]

theorem quotient_headD_eval {coeffs : List Int} {z hoc : Int}
    (hlast : coeffs.getLast? = some hoc) (hlen : 2 ≤ coeffs.length) :
    ((hoc :: synthLoopZ z hoc ((coeffs.drop 1).dropLast.reverse)).reverse).headD 0
      = polyEvalZ (coeffs.drop 1) z := by
  obtain ⟨c, b, t, rfl⟩ : ∃ c b t, coeffs = c :: b :: t := by
    cases coeffs with
    | nil => simp at hlen
    | cons c rest =>
      cases rest with
      | nil => simp at hlen
      | cons b t => exact ⟨c, b, t, rfl⟩
  have htail_last : (b :: t).getLast? = some hoc := by
    rw [← List.getLast?_cons_cons]; exact hlast
  rw [List.headD_eq_head?_getD, List.head?_reverse, ← List.getLastD_eq_getLast?,
    List.getLastD_cons, synthLoopZ_getLastD, List.reverse_reverse]
  have : ((c :: b :: t).drop 1).dropLast ++ [hoc] = (c :: b :: t).drop 1 := by
    simpa using List.dropLast_append_getLast? hoc htail_last
  rw [this]

theorem polyEvalZ_headD_tail {coeffs : List Int} (h : coeffs ≠ []) (z : Int) :
    polyEvalZ coeffs z = coeffs.headD 0 + z * polyEvalZ (coeffs.drop 1) z := by
  cases coeffs with
  | nil => exact absurd rfl h
  | cons c t => rfl

theorem divideByRoot_ok_eval {coeffs : List Int} {z : Int} {q : List Int}
    (h : Polynomial.divideByRoot coeffs z = .ok q) : polyEvalZ coeffs z = 0 := by
  unfold Polynomial.divideByRoot at h
  split at h
  · rename_i hnone
    rw [List.getLast?_eq_none_iff] at hnone
    rw [hnone]
    rfl
  · rename_i hoc hlast
    split at h
    · rename_i hone
      split at h
      · rename_i hz
        obtain ⟨x, rfl⟩ : ∃ x, coeffs = [x] := List.length_eq_one.mp hone
        have : x = hoc := by simpa using hlast
        rw [this, hz]
        simp [polyEvalZ]
      · cases h
    · rename_i hone
      have hne : coeffs ≠ [] := by
        intro hc
        rw [hc] at hlast
        cases hlast
      have hlen2 : 2 ≤ coeffs.length := by
        have h1 : coeffs.length ≠ 1 := hone
        have h0 : coeffs.length ≠ 0 := by
          simpa [List.length_eq_zero] using hne
        omega
      split at h
      · cases h
      · rename_i pushed hpush
        split at h
        · cases h
        · rename_i m hm
          split at h
          · cases h
          · rename_i rebuilt hneg
            split at h
            · rename_i hmatch
              have hQ : ((hoc :: pushed).reverse).headD 0
                  = polyEvalZ (coeffs.drop 1) z := by
                rw [synthLoopChecked_some hpush]
                exact quotient_headD_eval hlast hlen2
              have hm2 : m = z * (((hoc :: pushed).reverse).headD 0) := checkedMul_eq hm
              have hr2 : rebuilt = -m := checkedNeg_eq hneg
              rw [polyEvalZ_headD_tail hne z, ← hmatch, hr2, hm2, hQ]
              ring
            · cases h

theorem divideByRoot_ok_normalized {p : List Int} {z : Int} {q : List Int}
    (h : Polynomial.divideByRoot p z = .ok q) : normalized q := by
  have hnil : normalized ([] : List Int) := by
    intro hc; cases hc
  unfold Polynomial.divideByRoot at h
  split at h
  · cases h; exact hnil
  · split at h
    · split at h
      · cases h; exact hnil
      · cases h
    · split at h
      · cases h
      · split at h
        · cases h
        · split at h
          · cases h
          · split at h
            · rw [tryFrom_ok h]
              exact stripTrailingZeros_normalized _
            · cases h

theorem divideByRoot_ok_spec {coeffs : List Int} {z : Int} {q : List Int}
    (h : Polynomial.divideByRoot coeffs z = .ok q) (hlen : 2 ≤ coeffs.length)
    (hnorm : normalized coeffs) : q = specQuotient coeffs z := by
  unfold Polynomial.divideByRoot at h
  split at h
  · rename_i hnone
    rw [List.getLast?_eq_none_iff] at hnone
    rw [hnone] at hlen
    simp at hlen
  · rename_i hoc hlast
    split at h
    · rename_i hone
      omega
    · rename_i hone
      split at h
      · cases h
      · rename_i pushed hpush
        split at h
        · cases h
        · split at h
          · cases h
          · split at h
            · have hoc0 : hoc ≠ 0 := fun h0 => hnorm (h0 ▸ hlast)
              have hq : normalized ((hoc :: pushed).reverse) := by
                intro hc
                rw [List.getLast?_reverse] at hc
                exact hoc0 (Option.some.inj hc)
              rw [tryFrom_ok h, stripTrailingZeros_eq_self hq,
                synthLoopChecked_some hpush]
              unfold specQuotient
              rw [hlast]
            · cases h

theorem divideByRoot_mismatch_eval {coeffs : List Int} {z : Int}
    (h : Polynomial.divideByRoot coeffs z = .error .divisionMismatch) :
    polyEvalZ coeffs z ≠ 0 := by
  unfold Polynomial.divideByRoot at h
  split at h
  · cases h
  · rename_i hoc hlast
    split at h
    · split at h
      · cases h
      · cases h
    · rename_i hone
      have hne : coeffs ≠ [] := by
        intro hc
        rw [hc] at hlast
        cases hlast
      have hlen2 : 2 ≤ coeffs.length := by
        have h0 : coeffs.length ≠ 0 := by
          simpa [List.length_eq_zero] using hne
        omega
      split at h
      · cases h
      · rename_i pushed hpush
        split at h
        · cases h
        · rename_i m hm
          split at h
          · cases h
          · rename_i rebuilt hneg
            split at h
            · unfold Polynomial.tryFrom at h
              split at h
              · cases h
              · cases h
            · rename_i hmatch
              have hQ : ((hoc :: pushed).reverse).headD 0
                  = polyEvalZ (coeffs.drop 1) z := by
                rw [synthLoopChecked_some hpush]
                exact quotient_headD_eval hlast hlen2
              have hm2 : m = z * (((hoc :: pushed).reverse).headD 0) := checkedMul_eq hm
              have hr2 : rebuilt = -m := checkedNeg_eq hneg
              rw [polyEvalZ_headD_tail hne z]
              intro hzero
              apply hmatch
              rw [hr2, hm2, hQ]
              omega

theorem divideByRoot_error_kinds {coeffs : List Int} {z : Int} {e : PolyError}
    (h : Polynomial.divideByRoot coeffs z = .error e) (hlen : 2 ≤ coeffs.length)
    (hbound : coeffs.length ≤ U32_MAX + 1) :
    e = .overflow ∨ e = .divisionMismatch := by
  unfold Polynomial.divideByRoot at h
  split at h
  · cases h
  · rename_i hoc hlast
    split at h
    · rename_i hone
      omega
    · rename_i hone
      split at h
      · cases h; exact Or.inl rfl
      · rename_i pushed hpush
        split at h
        · cases h; exact Or.inl rfl
        · split at h
          · cases h; exact Or.inl rfl
          · split at h
            · exfalso
              unfold Polynomial.tryFrom at h
              split at h
              · rename_i htoolong
                have hp : pushed = synthLoopZ z hoc ((coeffs.drop 1).dropLast.reverse) :=
                  synthLoopChecked_some hpush
                have hql : ((hoc :: pushed).reverse).length = coeffs.length - 1 := by
                  rw [hp]
                  simp [synthLoopZ_length]
                  omega
                rw [hql] at htoolong
                omega
              · cases h
            · cases h; exact Or.inr rfl

/-! ### Commitment loop -/

theorem msmLoop_eq_sum :
    ∀ (cs : List Int) (srs : List SetupArtifact) (acc : ZMod R),
      cs.length ≤ srs.length →
      Polynomial.msmLoop cs srs acc
        = acc + ∑ i ∈ Finset.range cs.length,
            (srs.getD i default).g1 * ((cs.getD i 0 : Int) : ZMod R) := by
  intro cs
  induction cs with
  | nil =>
    intro srs acc _
    simp [Polynomial.msmLoop]
  | cons c cst ih =>
    intro srs acc hlen
    cases srs with
    | nil => simp at hlen
    | cons a ast =>
      rw [Polynomial.msmLoop, ih ast _ (by simpa using hlen), List.length_cons,
        Finset.sum_range_succ']
      simp only [List.getD_cons_succ, List.getD_cons_zero]
      ring

/-! ### Trusted-setup sequence -/

theorem takeArtifacts_state (s : ℕ) :
    ∀ (n c : ℕ),
      SetupArtifactsGenerator.takeArtifacts ⟨s, false, c⟩ n
        = (List.range n).map (fun i =>
            (⟨((c * s ^ (i + 1) : ℕ) : ZMod R), ((c * s ^ (i + 1) : ℕ) : ZMod R)⟩ :
              SetupArtifact)) := by
  intro n
  induction n with
  | zero => intro c; rfl
  | succ m ih =>
    intro c
    rw [SetupArtifactsGenerator.takeArtifacts]
    have hnext : SetupArtifactsGenerator.next ⟨s, false, c⟩
        = (⟨((c * s : ℕ) : ZMod R), ((c * s : ℕ) : ZMod R)⟩, ⟨s, false, c * s⟩) := by
      unfold SetupArtifactsGenerator.next
      rfl
    rw [hnext]
    simp only
    rw [ih (c * s), List.range_succ_eq_map, List.map_cons, List.map_map]
    congr 1
    · rw [pow_one]
    · apply List.map_congr_left
      intro i _
      simp only [Function.comp_apply, Nat.succ_eq_add_one]
      have harg : c * s * s ^ (i + 1) = c * s ^ (i + 1 + 1) := by ring
      rw [harg]

theorem takeArtifacts_new (s n : ℕ) :
    SetupArtifactsGenerator.takeArtifacts (SetupArtifactsGenerator.new s) (n + 1)
      = (⟨1, 1⟩ : SetupArtifact) ::
          (List.range n).map (fun i =>
            (⟨((s ^ (i + 1) : ℕ) : ZMod R), ((s ^ (i + 1) : ℕ) : ZMod R)⟩ :
              SetupArtifact)) := by
  rw [SetupArtifactsGenerator.takeArtifacts]
  have hnext : SetupArtifactsGenerator.next (SetupArtifactsGenerator.new s)
      = ((⟨1, 1⟩ : SetupArtifact), ⟨s, false, 1⟩) := by
    unfold SetupArtifactsGenerator.next SetupArtifactsGenerator.new
    rfl
  rw [hnext]
  simp only
  rw [takeArtifacts_state]
  congr 1
  apply List.map_congr_left
  intro i _
  rw [one_mul]

/-! ### Scalar exponentiation -/

theorem pows_succ (s : ZMod R) (k : ℕ) :
    pows s (k + 1) = pows s k ++ [s ^ 2 ^ (k + 1)] := by
  unfold pows
  rw [List.range_succ, List.map_append]
  rfl

theorem pows_length (s : ZMod R) (k : ℕ) : (pows s k).length = k := by
  unfold pows
  simp

theorem pows_getLastD (s : ZMod R) (k : ℕ) :
    (pows s k).getLastD s = s ^ 2 ^ k := by
  cases k with
  | zero =>
    show s = s ^ 2 ^ 0
    rw [pow_zero, pow_one]
  | succ m =>
    rw [pows_succ, List.getLastD_eq_getLast?, List.getLast?_concat]
    rfl

theorem pows_dropLast (s : ZMod R) (k : ℕ) :
    (pows s (k + 1)).dropLast = pows s k := by
  rw [pows_succ, List.dropLast_concat]

theorem pows_getLast? (s : ZMod R) (k : ℕ) :
    (pows s (k + 1)).getLast? = some (s ^ 2 ^ (k + 1)) := by
  rw [pows_succ, List.getLast?_concat]

theorem buildPowers_spec (s : ZMod R) (t : ℕ) :
    ∀ (fuel m : ℕ), 2 ^ m ≤ t → t < 2 ^ (m + fuel + 1) →
      ∃ k, 2 ^ k ≤ t ∧ t < 2 ^ (k + 1) ∧
        Scalar.buildPowers s t fuel (2 ^ m) (pows s m) = pows s k := by
  intro fuel
  induction fuel with
  | zero =>
    intro m h1 h2
    refine ⟨m, h1, ?_, rfl⟩
    have he : m + 0 + 1 = m + 1 := by omega
    rwa [he] at h2
  | succ f ih =>
    intro m h1 h2
    rw [Scalar.buildPowers]
    by_cases hcond : 2 ^ m * 2 ≤ t
    · rw [if_pos hcond]
      have h1a : 2 ^ (m + 1) ≤ t := by rw [pow_succ]; exact hcond
      have h2a : t < 2 ^ (m + 1 + f + 1) := by
        have he : m + 1 + f + 1 = m + (f + 1) + 1 := by omega
        rw [he]
        exact h2
      have hacc : pows s m ++ [(pows s m).getLastD s * (pows s m).getLastD s]
          = pows s (m + 1) := by
        rw [pows_succ, pows_getLastD, ← pow_add]
        congr 3
        rw [pow_succ 2 m]
        ring
      have hcpt : (2 : ℕ) ^ m * 2 = 2 ^ (m + 1) := (pow_succ 2 m).symm
      rw [hacc, hcpt]
      exact ih (m + 1) h1a h2a
    · rw [if_neg hcond]
      refine ⟨m, h1, ?_, rfl⟩
      rw [pow_succ]
      omega

theorem trackerAt_zero (t : ℕ) : trackerAt t 0 = t := by
  unfold trackerAt
  norm_num
  omega

theorem trackerAt_step (t j : ℕ) :
    ((trackerAt t (j + 1) + 2 ^ (j + 1) ≤ t) ↔ t / 2 ^ (j + 1) % 2 = 1) ∧
    (t / 2 ^ (j + 1) % 2 = 1 → trackerAt t (j + 1) + 2 ^ (j + 1) = trackerAt t j) ∧
    (t / 2 ^ (j + 1) % 2 = 0 → trackerAt t (j + 1) = trackerAt t j) := by
  have hsucc : (2 : ℕ) ^ (j + 1 + 1) = 2 ^ (j + 1) * 2 := pow_succ 2 (j + 1)
  have hpos : 0 < (2 : ℕ) ^ (j + 1) := Nat.pos_pow_of_pos _ (by norm_num)
  have hB : t % 2 ^ (j + 1 + 1)
      = t % 2 ^ (j + 1) + 2 ^ (j + 1) * (t / 2 ^ (j + 1) % 2) := by
    rw [hsucc, Nat.mod_mul]
  have hC : t % 2 ^ (j + 1) % 2 = t % 2 :=
    Nat.mod_mod_of_dvd t (dvd_pow_self 2 (Nat.succ_ne_zero j))
  have hE : t % 2 ^ (j + 1) < 2 ^ (j + 1) := Nat.mod_lt _ hpos
  have hle1 : t % 2 ^ (j + 1) ≤ t := Nat.mod_le t _
  have hle2 : t % 2 ^ (j + 1 + 1) ≤ t := Nat.mod_le t _
  unfold trackerAt
  rcases Nat.mod_two_eq_zero_or_one (t / 2 ^ (j + 1)) with hb | hb <;>
    rw [hb] at hB ⊢ <;>
    simp only [Nat.mul_zero, Nat.mul_one, Nat.add_zero] at hB
  · generalize t % 2 ^ (j + 1 + 1) = m2 at hB hle2 ⊢
    generalize t % 2 ^ (j + 1) = m1 at hB hC hE hle1 ⊢
    generalize (2 : ℕ) ^ (j + 1) = p at hB hE hpos ⊢
    omega
  · generalize t % 2 ^ (j + 1 + 1) = m2 at hB hle2 ⊢
    generalize t % 2 ^ (j + 1) = m1 at hB hC hE hle1 ⊢
    generalize (2 : ℕ) ^ (j + 1) = p at hB hE hpos ⊢
    omega

theorem powLoop_unfold (target fuel : ℕ) (res : ZMod R) (tracker : ℕ)
    (powered : List (ZMod R)) (avail : ℕ) :
    Scalar.powLoop target (fuel + 1) res tracker powered avail
      = if tracker = target then some res
        else if tracker + avail ≤ target then
          match powered.getLast? with
          | none => none
          | some p =>
            Scalar.powLoop target fuel (res * p) (tracker + avail)
              powered.dropLast (avail / 2)
        else Scalar.powLoop target fuel res tracker powered.dropLast (avail / 2) := by
  rw [Scalar.powLoop]

theorem powLoop_spec (s : ZMod R) (t : ℕ) :
    ∀ j : ℕ,
      Scalar.powLoop t (j + 1) (s ^ trackerAt t j) (trackerAt t j) (pows s j) (2 ^ j)
        = some (s ^ t) := by
  intro j
  induction j with
  | zero =>
    rw [trackerAt_zero, powLoop_unfold, if_pos rfl]
  | succ j ih =>
    have hav : 2 ^ (j + 1) / 2 = 2 ^ j := by
      rw [pow_succ]
      exact Nat.mul_div_cancel _ (by norm_num)
    rw [powLoop_unfold]
    by_cases hT : trackerAt t (j + 1) = t
    · rw [if_pos hT, hT]
    · rw [if_neg hT]
      obtain ⟨hcond, hstep1, hstep0⟩ := trackerAt_step t j
      rcases Nat.mod_two_eq_zero_or_one (t / 2 ^ (j + 1)) with hb | hb
      · have hc : ¬ (trackerAt t (j + 1) + 2 ^ (j + 1) ≤ t) := by
          rw [hcond, hb]
          norm_num
        rw [if_neg hc, pows_dropLast, hav, hstep0 hb]
        exact ih
      · rw [if_pos (hcond.mpr hb), pows_getLast?]
        show Scalar.powLoop t (j + 1) (s ^ trackerAt t (j + 1) * s ^ 2 ^ (j + 1))
            (trackerAt t (j + 1) + 2 ^ (j + 1)) (pows s (j + 1)).dropLast
            (2 ^ (j + 1) / 2) = some (s ^ t)
        rw [pows_dropLast, hav, ← pow_add, hstep1 hb]
        exact ih

theorem powLoop_call_eq (s : ZMod R) (n : ℕ) (h2 : 2 ≤ n) :
    Scalar.powLoop (n / 2) ((Scalar.buildPowers s (n / 2) (n / 2) 1 []).length + 1)
      (if n / 2 % 2 = 0 then (1 : ZMod R) else s)
      (if n / 2 % 2 = 0 then 0 else 1)
      (Scalar.buildPowers s (n / 2) (n / 2) 1 [])
      (2 ^ (Scalar.buildPowers s (n / 2) (n / 2) 1 []).length)
      = some (s ^ (n / 2)) := by
  have ht1 : 1 ≤ n / 2 := by omega
  obtain ⟨k, hk1, hk2, hbp⟩ := buildPowers_spec s (n / 2) (n / 2) 0
    (by simpa using ht1)
    (by
      rw [Nat.zero_add]
      calc n / 2 < 2 ^ (n / 2) := Nat.lt_two_pow _
        _ ≤ 2 ^ (n / 2 + 1) := Nat.pow_le_pow_right (by norm_num) (by omega))
  have hbp2 : Scalar.buildPowers s (n / 2) (n / 2) 1 [] = pows s k := hbp
  have hinit1 : (if n / 2 % 2 = 0 then (1 : ZMod R) else s) = s ^ (n / 2 % 2) := by
    rcases Nat.mod_two_eq_zero_or_one (n / 2) with h | h <;> simp [h]
  have hinit2 : (if n / 2 % 2 = 0 then (0 : ℕ) else 1) = n / 2 % 2 := by
    rcases Nat.mod_two_eq_zero_or_one (n / 2) with h | h <;> simp [h]
  have htr : trackerAt (n / 2) k = n / 2 % 2 := by
    unfold trackerAt
    rw [Nat.mod_eq_of_lt hk2]
    omega
  rw [hbp2, pows_length, hinit1, hinit2, ← htr]
  exact powLoop_spec s (n / 2) k

theorem scalarPow_eq (s : ZMod R) (n : ℕ) : Scalar.pow s n = some (s ^ n) := by
  unfold Scalar.pow
  by_cases h0 : n = 0
  · rw [if_pos h0, h0, pow_zero]
  · rw [if_neg h0]
    by_cases h1 : n = 1
    · rw [if_pos h1, h1, pow_one]
    · rw [if_neg h1]
      have h2 : 2 ≤ n := by omega
      rw [powLoop_call_eq s n h2]
      show some (if n / 2 * 2 = n then s ^ (n / 2) * s ^ (n / 2)
          else s ^ (n / 2) * s ^ (n / 2) * s) = some (s ^ n)
      by_cases hpar : n / 2 * 2 = n
      · rw [if_pos hpar, ← pow_add]
        congr 2
        omega
      · rw [if_neg hpar, ← pow_add, ← pow_succ]
        congr 2
        omega

/-! ### Claim C1 -/

/-- Claim C1 counterexample: on the polynomial `2^126·x - 2^127`, which is
exactly `(x - 2) · 2^126` (remainder zero), `divide_by_root(2)` does not
return the quotient: the reconstructed constant term `2 · 2^126` overflows
`i128` and the call fails with an overflow error. -/
theorem c1_counterexample_overflow :
    Polynomial.divideByRoot [-(2 ^ 127), 2 ^ 126] 2 = .error .overflow ∧
    polyEvalZ [-(2 ^ 127), 2 ^ 126] 2 = 0 := by
  constructor
  · rfl
  · norm_num [polyEvalZ]

/-- Claim C1 (amended): for a polynomial `a_0 … a_n` with `n ≥ 1`, a nonzero
leading coefficient and at most `u32::MAX + 1` coefficients, and any root
`z`, **provided no intermediate `i128` overflow occurs** (the call does not
return the overflow error), `divide_by_root` succeeds returning exactly the
synthetic-division quotient `b_0 … b_{n-1}` if and only if the remainder
`p(z)` is zero, and fails at the reconstructed-constant-term check if and
only if the remainder is nonzero. -/
theorem c1_divideByRoot_synthetic_division (coeffs : List Int) (z : Int)
    (hlen : 2 ≤ coeffs.length) (hbound : coeffs.length ≤ U32_MAX + 1)
    (hnorm : normalized coeffs)
    (hnoof : Polynomial.divideByRoot coeffs z ≠ .error .overflow) :
    (Polynomial.divideByRoot coeffs z = .ok (specQuotient coeffs z) ↔
      polyEvalZ coeffs z = 0) ∧
    (Polynomial.divideByRoot coeffs z = .error .divisionMismatch ↔
      polyEvalZ coeffs z ≠ 0) := by
  cases hD : Polynomial.divideByRoot coeffs z with
  | ok q =>
    have heval := divideByRoot_ok_eval hD
    have hspec := divideByRoot_ok_spec hD hlen hnorm
    constructor
    · rw [← hspec]
      exact ⟨fun _ => heval, fun _ => rfl⟩
    · constructor
      · intro hc; cases hc
      · intro hne; exact absurd heval hne
  | error e =>
    rcases divideByRoot_error_kinds hD hlen hbound with rfl | rfl
    · exact absurd hD hnoof
    · have hne := divideByRoot_mismatch_eval hD
      constructor
      · constructor
        · intro hc; cases hc
        · intro h0; exact absurd h0 hne
      · exact ⟨fun _ => hne, fun _ => rfl⟩

/-- Claim C1 witness: the amended theorem applied to `5x - 10` and root 2,
where the division is exact. -/
theorem c1_divideByRoot_synthetic_division_witness :
    (Polynomial.divideByRoot [-10, 5] 2 = .ok (specQuotient [-10, 5] 2) ↔
      polyEvalZ [-10, 5] 2 = 0) ∧
    (Polynomial.divideByRoot [-10, 5] 2 = .error .divisionMismatch ↔
      polyEvalZ [-10, 5] 2 ≠ 0) :=
  c1_divideByRoot_synthetic_division [-10, 5] 2 (by norm_num)
    (by norm_num [U32_MAX]) (by decide)
    (fun hc => by
      have hok : Polynomial.divideByRoot [-10, 5] 2 = .ok [5] := rfl
      rw [hok] at hc
      cases hc)

/-! ### Claim C2 -/

/-- Claim C2: for every coefficient list, SRS, and evaluation whose claimed
result differs from the exact value of the polynomial at the evaluation
point, `generate_evaluation_proof` returns an error (it never returns a
proof point): either the subtraction or the division fails, the latter at
the quotient-division mismatch check. -/
theorem c2_generateEvaluationProof_tampered (coeffs : List Int)
    (ev : Evaluation) (srs : List SetupArtifact)
    (h : ev.result ≠ polyEvalZ coeffs ev.point) :
    ∃ e, Polynomial.generateEvaluationProof coeffs ev srs = .error e := by
  cases hs : Polynomial.sub coeffs (Polynomial.fromConstant ev.result) with
  | error e =>
    refine ⟨e, ?_⟩
    unfold Polynomial.generateEvaluationProof
    rw [hs]
  | ok d =>
    have hred : Polynomial.generateEvaluationProof coeffs ev srs
        = (match Polynomial.divideByRoot d ev.point with
           | .error e => .error e
           | .ok q => Polynomial.commit q srs) := by
      unfold Polynomial.generateEvaluationProof
      rw [hs]
    cases hd : Polynomial.divideByRoot d ev.point with
    | error e =>
      refine ⟨e, ?_⟩
      rw [hred, hd]
    | ok q =>
      exfalso
      have h1 := polyEvalZ_sub_ok hs ev.point
      have h2 := divideByRoot_ok_eval hd
      rw [h2] at h1
      have h3 : polyEvalZ (Polynomial.fromConstant ev.result) ev.point = ev.result := by
        simp [Polynomial.fromConstant, polyEvalZ]
      rw [h3] at h1
      exact h (by omega)

/-- Claim C2 witness: `p(x) = 1 + x` with the evaluation at 2 tampered to 5
(the true value is 3) never yields a proof. -/
theorem c2_generateEvaluationProof_tampered_witness :
    ∃ e, Polynomial.generateEvaluationProof [1, 1] ⟨2, 5⟩ [⟨1, 1⟩, ⟨1, 1⟩]
      = .error e :=
  c2_generateEvaluationProof_tampered [1, 1] ⟨2, 5⟩ [⟨1, 1⟩, ⟨1, 1⟩]
    (by norm_num [polyEvalZ])

/-! ### Claim C4 -/

/-- Claim C4 counterexample: evaluation is not overflow-free — evaluating
the polynomial with coefficients `[0, i128::MAX]` at `x = 2` fails with an
overflow error instead of succeeding. -/
theorem c4_counterexample_overflow :
    Polynomial.evaluate [0, I128_MAX] 2 = .error .overflow := by
  rfl

/-- Claim C4 (amended): `evaluate` uses checked fixed-width `i128`
arithmetic, not field reduction; whenever it succeeds it returns exactly
`{point: x, result: Σ a_i · x^i}`, and it fails with an overflow error
otherwise (the coefficient-count bound `2^32` makes the `degree as u32`
cast lossless). -/
theorem c4_evaluate_ok_exact (coeffs : List Int) (x : Int) (e : Evaluation)
    (hlen : coeffs.length ≤ 2 ^ 32)
    (h : Polynomial.evaluate coeffs x = .ok e) :
    e.point = x ∧
    e.result = ∑ i ∈ Finset.range coeffs.length, coeffs.getD i 0 * x ^ i := by
  unfold Polynomial.evaluate at h
  split at h
  · cases h
  · rename_i r hr
    cases h
    refine ⟨rfl, ?_⟩
    have := evaluateAux_ok coeffs 0 0 r (by omega) hr
    simpa using this

/-- Claim C4 witness: evaluating `2x^2 + 3x + 4` at 2 yields the pair
`(2, 18)`. -/
theorem c4_evaluate_ok_exact_witness :
    (⟨2, 18⟩ : Evaluation).point = 2 ∧
    (⟨2, 18⟩ : Evaluation).result =
      ∑ i ∈ Finset.range ([4, 3, 2] : List Int).length,
        ([4, 3, 2] : List Int).getD i 0 * 2 ^ i :=
  c4_evaluate_ok_exact [4, 3, 2] 2 ⟨2, 18⟩ (by norm_num) (by rfl)

/-! ### Claim C6 -/

/-- Claim C6 counterexample: `from_constant(0)` yields the one-element
sequence `[0]`, which has a trailing zero coefficient — not the empty
sequence the invariant requires for the zero polynomial. -/
theorem c6_counterexample_fromConstant_zero :
    Polynomial.fromConstant 0 = [0] ∧ ¬ normalized (Polynomial.fromConstant 0) := by
  constructor
  · rfl
  · intro hn
    exact hn rfl

/-- Claim C6 (amended): `try_from`, `sub` and `divide_by_root` always
produce normalized coefficient sequences (no trailing zero; the empty
sequence represents the zero polynomial), while `from_constant(a)` yields
the single-element sequence `[a]`, normalized exactly when `a ≠ 0`;
`from_constant(0)` yields `[0]`, not the empty sequence. -/
theorem c6_normalization_invariant :
    (∀ l q : List Int, Polynomial.tryFrom l = .ok q → normalized q) ∧
    (∀ a b c : List Int, Polynomial.sub a b = .ok c → normalized c) ∧
    (∀ (p : List Int) (z : Int) (q : List Int),
        Polynomial.divideByRoot p z = .ok q → normalized q) ∧
    (∀ a : Int, a ≠ 0 → normalized (Polynomial.fromConstant a)) := by
  refine ⟨?_, ?_, ?_, ?_⟩
  · intro l q h
    rw [tryFrom_ok h]
    exact stripTrailingZeros_normalized l
  · intro a b c h
    rw [sub_ok h]
    exact stripTrailingZeros_normalized _
  · intro p z q h
    exact divideByRoot_ok_normalized h
  · intro a ha hc
    exact ha (Option.some.inj hc)

/-- Claim C6 witness: the amended invariant applied to concrete runs of all
four constructors. -/
theorem c6_normalization_invariant_witness :
    normalized [1] ∧ normalized [-14, 3, 2] ∧ normalized [5] ∧
    normalized (Polynomial.fromConstant 7) :=
  ⟨c6_normalization_invariant.1 [1, 0, 0] [1] (by rfl),
   c6_normalization_invariant.2.1 [4, 3, 2] [18] [-14, 3, 2] (by rfl),
   c6_normalization_invariant.2.2.1 [-10, 5] 2 [5] (by rfl),
   c6_normalization_invariant.2.2.2 7 (by norm_num)⟩

/-! ### Claim C3 -/

/-- Claim C3 counterexample: with an empty SRS slice, `verify_proof` does
not return a result value carrying an error — the `setup_artifacts[1]`
indexing panics (modelled by `none`). -/
theorem c3_counterexample_verifyProof_panics :
    Evaluation.verifyProof ⟨0, 0⟩ 0 0 [] = none := rfl

/-- Claim C3 (amended): `verify_proof` performs no SRS-length check and its
error arm is dead code: on a slice with fewer than 2 artifacts it panics at
the `setup_artifacts[1]` index (modelled by `none`) instead of returning an
InsufficientSrs error, and with at least 2 artifacts it returns the pairing
comparison. -/
theorem c3_verifyProof_srs_length (ev : Evaluation) (proof commitment : ZMod R)
    (srs : List SetupArtifact) :
    (srs.length < 2 → Evaluation.verifyProof ev proof commitment srs = none) ∧
    (2 ≤ srs.length →
      (Evaluation.verifyProof ev proof commitment srs).isSome = true) := by
  constructor
  · intro hlt
    unfold Evaluation.verifyProof
    have hnone : srs[1]? = none := by
      rw [List.getElem?_eq_none_iff]
      omega
    rw [hnone]
  · intro hge
    unfold Evaluation.verifyProof
    have h1 : 1 < srs.length := by omega
    rw [List.getElem?_eq_getElem h1]
    rfl

/-- Claim C3 witness: a one-element SRS panics, a two-element SRS returns a
verdict. -/
theorem c3_verifyProof_srs_length_witness :
    Evaluation.verifyProof ⟨1, 2⟩ 3 4 [⟨5, 6⟩] = none ∧
    (Evaluation.verifyProof ⟨1, 2⟩ 3 4 [⟨5, 6⟩, ⟨7, 8⟩]).isSome = true :=
  ⟨(c3_verifyProof_srs_length ⟨1, 2⟩ 3 4 [⟨5, 6⟩]).1 (by norm_num),
   (c3_verifyProof_srs_length ⟨1, 2⟩ 3 4 [⟨5, 6⟩, ⟨7, 8⟩]).2 (by norm_num)⟩

/-! ### Claim C5 -/

/-- Claim C5: `commit` fails (with the insufficient-SRS error) exactly when
`degree + 1 > len(srs)`, and otherwise returns the multi-scalar
multiplication `Σ_i coefficient_i · srs[i].g1` over the Base-group half of
the SRS — the empty sum, i.e. the identity, for the zero polynomial. -/
theorem c5_commit_msm (coeffs : List Int) (srs : List SetupArtifact) :
    (Polynomial.commit coeffs srs = .error .insufficientSetup ↔
      srs.length < Polynomial.degree coeffs + 1) ∧
    (Polynomial.degree coeffs + 1 ≤ srs.length →
      Polynomial.commit coeffs srs
        = .ok (∑ i ∈ Finset.range coeffs.length,
            ((coeffs.getD i 0 : Int) : ZMod R) * (srs.getD i default).g1)) := by
  have hlenaux : Polynomial.degree coeffs + 1 ≤ srs.length →
      coeffs.length ≤ srs.length := by
    intro hle
    unfold Polynomial.degree at hle
    split at hle
    · rename_i hemp
      rw [List.isEmpty_iff] at hemp
      rw [hemp]
      simp
    · omega
  constructor
  · unfold Polynomial.commit
    split
    · rename_i hgt
      exact ⟨fun _ => by omega, fun _ => rfl⟩
    · rename_i hle
      constructor
      · intro hc; cases hc
      · intro hlt; omega
  · intro hle
    unfold Polynomial.commit
    rw [if_neg (by omega)]
    congr 1
    rw [msmLoop_eq_sum coeffs srs 0 (hlenaux hle), zero_add]
    exact Finset.sum_congr rfl (fun i _ => mul_comm _ _)

/-- Claim C5 witness: committing `1 + 2x` against a two-element SRS. -/
theorem c5_commit_msm_witness :
    Polynomial.commit [1, 2] [⟨3, 30⟩, ⟨5, 50⟩]
      = .ok (∑ i ∈ Finset.range ([1, 2] : List Int).length,
          ((([1, 2] : List Int).getD i 0 : Int) : ZMod R)
            * (([⟨3, 30⟩, ⟨5, 50⟩] : List SetupArtifact).getD i default).g1) :=
  (c5_commit_msm [1, 2] [⟨3, 30⟩, ⟨5, 50⟩]).2 (by decide)

/-! ### Claim C7 -/

/-- Claim C7 counterexample: the 48-byte big-endian secrets with values 0
and R (the group order, which fits in 48 bytes) are different, yet the two
setup sequences agree at the second element — and at every element — since
artifact generation only depends on the secret modulo R. -/
theorem c7_counterexample_congruent_secrets :
    (0 : ℕ) ≠ R ∧
    SetupArtifactsGenerator.takeArtifacts (SetupArtifactsGenerator.new 0) 2
      = SetupArtifactsGenerator.takeArtifacts (SetupArtifactsGenerator.new R) 2 := by
  constructor
  · norm_num [R]
  · decide

/-- Claim C7 (amended): two sequences built from the same secret produce
identical outputs; the zero-th element is the fixed generator pair,
independent of the secret; and two sequences diverge at the second element
if and only if their secrets are incongruent modulo the group order R (raw
inequality of the secrets is not sufficient). -/
theorem c7_generator_determinism (s s2 n : ℕ) :
    (SetupArtifactsGenerator.takeArtifacts (SetupArtifactsGenerator.new s) n
      = SetupArtifactsGenerator.takeArtifacts (SetupArtifactsGenerator.new s) n) ∧
    ((SetupArtifactsGenerator.takeArtifacts (SetupArtifactsGenerator.new s) (n + 1)).headD
        default = (⟨1, 1⟩ : SetupArtifact)) ∧
    ((SetupArtifactsGenerator.takeArtifacts (SetupArtifactsGenerator.new s) 2).getD 1 default
        ≠ (SetupArtifactsGenerator.takeArtifacts (SetupArtifactsGenerator.new s2) 2).getD 1
            default
      ↔ s % R ≠ s2 % R) := by
  refine ⟨rfl, ?_, ?_⟩
  · rw [takeArtifacts_new]
    rfl
  · rw [show (2 : ℕ) = 1 + 1 from rfl, takeArtifacts_new s 1, takeArtifacts_new s2 1]
    simp only [List.range_succ, List.range_zero, List.nil_append, List.map_cons,
      List.map_nil, zero_add, pow_one]
    have hgetD : ∀ x : ℕ,
        ((⟨1, 1⟩ : SetupArtifact) ::
            [(⟨(x : ZMod R), (x : ZMod R)⟩ : SetupArtifact)]).getD 1 default
          = ⟨(x : ZMod R), (x : ZMod R)⟩ := fun _ => rfl
    rw [hgetD s, hgetD s2]
    constructor
    · intro hne hmod
      apply hne
      have : (s : ZMod R) = (s2 : ZMod R) := by
        rw [ZMod.natCast_eq_natCast_iff']
        exact hmod
      rw [this]
    · intro hmod hne
      apply hmod
      have : (s : ZMod R) = (s2 : ZMod R) := congrArg SetupArtifact.g1 hne
      rw [← ZMod.natCast_eq_natCast_iff']
      exact this

/-! ### Claim C8 -/

/-- Claim C8: `divide_by_root` on the zero polynomial (empty coefficient
sequence) succeeds with the zero polynomial for every root, and on a
degree-0 polynomial with nonzero constant term fails with the
constant-polynomial error for every root. -/
theorem c8_divideByRoot_degenerate (z c : Int) :
    Polynomial.divideByRoot [] z = .ok [] ∧
    (c ≠ 0 → Polynomial.divideByRoot [c] z = .error .unableToDivideConstant) := by
  refine ⟨rfl, fun hc => ?_⟩
  simp [Polynomial.divideByRoot, hc]

/-- Claim C8 witness: the theorem applied at root 5 and constant 3. -/
theorem c8_divideByRoot_degenerate_witness :
    Polynomial.divideByRoot [] 5 = .ok [] ∧
    Polynomial.divideByRoot [3] 5 = .error .unableToDivideConstant :=
  ⟨(c8_divideByRoot_degenerate 5 3).1,
   (c8_divideByRoot_degenerate 5 3).2 (by norm_num)⟩

/-! ### Claim C9 -/

/-- Claim C9: `pow` returns the multiplicative identity at exponent 0 and
`self` at exponent 1, and for every exponent `n` the power-of-two
decomposition via the target half factor computes exactly the n-fold field
product `s^n`. -/
theorem c9_pow_correct (s : ZMod R) (n : ℕ) :
    Scalar.pow s 0 = some 1 ∧ Scalar.pow s 1 = some s ∧
    Scalar.pow s n = some (s ^ n) :=
  ⟨by rw [scalarPow_eq, pow_zero], by rw [scalarPow_eq, pow_one],
   scalarPow_eq s n⟩

/-! ### Claim C10 -/

/-- Claim C10: for every scalar and every exponent `n ≥ 2`, the greedy
decomposition loop of `Scalar::pow` terminates with the tracker reaching
the target factor `n / 2` exactly within the proven fuel bound, and never
reads `powered_scalars[powered_scalars.len() - 1]` while the vector is
empty — both failure modes are modelled by `none`, and the loop call
always returns a value, so `pow` is a total function. -/
theorem c10_powLoop_terminates (s : ZMod R) (n : ℕ) (h : 2 ≤ n) :
    (Scalar.powLoop (n / 2)
        ((Scalar.buildPowers s (n / 2) (n / 2) 1 []).length + 1)
        (if n / 2 % 2 = 0 then (1 : ZMod R) else s)
        (if n / 2 % 2 = 0 then 0 else 1)
        (Scalar.buildPowers s (n / 2) (n / 2) 1 [])
        (2 ^ (Scalar.buildPowers s (n / 2) (n / 2) 1 []).length)).isSome = true := by
  rw [powLoop_call_eq s n h]
  rfl

/-- Claim C10 witness: the loop terminates for scalar 3 and exponent 57. -/
theorem c10_powLoop_terminates_witness :
    (Scalar.powLoop (57 / 2)
        ((Scalar.buildPowers 3 (57 / 2) (57 / 2) 1 []).length + 1)
        (if 57 / 2 % 2 = 0 then (1 : ZMod R) else 3)
        (if 57 / 2 % 2 = 0 then 0 else 1)
        (Scalar.buildPowers 3 (57 / 2) (57 / 2) 1 [])
        (2 ^ (Scalar.buildPowers 3 (57 / 2) (57 / 2) 1 []).length)).isSome = true :=
  c10_powLoop_terminates 3 57 (by norm_num)

end KZG
